import Mathlib

/-!
# Verification of `hydra::GaussKronrodAdaptiveQuadrature`

Shallow embedding of `src/hydra/GaussKronrodAdaptiveQuadrature.h`
(`template<size_t NRULE, size_t NBIN, BACKEND> class
GaussKronrodAdaptiveQuadrature`).  Real-valued quantities (`GReal_t`,
i.e. `double`) are modelled as rationals `ℚ` wherever the code performs
field arithmetic only, and as real numbers `ℝ` for the one function
(`GetError`) that takes a fractional power.  Machine integers (`GUInt_t`,
`size_t`) are modelled as `ℕ`; the node counts involved are far below any
overflow boundary, so no wrap-around modelling is needed.

The node table, the parameter table and the operations on them
(`InitNodes`, `CountNodesToProcess`, `SetParametersTable`, the setters,
the copy constructor and assignment operator) are translated directly
from the header.  The quadrature-rule object (`GaussKronrodRules.h`), the
out-of-line body of `Integrate`
(`hydra/detail/GaussKronrodAdaptiveQuadrature.inl`) and the refinement
step `UpdateNodes` are not part of the available sources; they are
modelled from the specification where a claim needs them, and each such
definition is marked `Modelled from the spec:` in its doc comment.
-/

namespace Hydra

/-- One entry of the node table.  In the source a node is the tuple
`thrust::tuple<GBool_t process, GUInt_t bin, double lower, double upper,
double integral, double error>`. -/
structure GKNode where
  process : Bool
  binId : ℕ
  lower : ℚ
  upper : ℚ
  integral : ℚ
  error : ℚ
deriving DecidableEq, Repr

/-- One entry of the parameter table.  In the source this is the tuple
`thrust::tuple<GUInt_t bin, double abscissa_X_P, double abscissa_X_M,
double Jacobian, double rule_GaussKronrod_Weight, double
rule_Gauss_Weight>`. -/
structure GKParam where
  binId : ℕ
  abscissaXP : ℚ
  abscissaXM : ℚ
  jacobian : ℚ
  kronrodWeight : ℚ
  gaussWeight : ℚ
deriving DecidableEq, Repr

instance : Inhabited GKParam := ⟨⟨0, 0, 0, 0, 0, 0⟩⟩

/-- Modelled from the spec: the quadrature rule object
`GaussKronrodRule<NRULE>` lives in `hydra/GaussKronrodRules.h`, which is
not among the available sources.  Per the specification it is an
immutable table exposing Kronrod weights, Gauss weights, and a pure
abscissa mapping `GetAbscissa(i, lower, upper) → (x_plus, x_minus,
jacobian)`. -/
structure GKRule where
  KronrodWeight : ℕ → ℚ
  GaussWeight : ℕ → ℚ
  GetAbscissa : ℕ → ℚ → ℚ → ℚ × ℚ × ℚ

/-- The state of a `GaussKronrodAdaptiveQuadrature` object: the data
members `fIterationNumber`, `fXLower`, `fXUpper`, `fMaxRelativeError`,
`fNodesTable`, `fRule`.  The transient tables (`fParametersTable`,
`fCallTableHost`, `fCallTableDevice`) are working storage recreated from
the node table and are not part of the abstract state. -/
structure GKState where
  fIterationNumber : ℕ
  fXLower : ℚ
  fXUpper : ℚ
  fMaxRelativeError : ℚ
  fNodesTable : List GKNode
  fRule : GKRule

/-- `InitNodes` (header, lines 350–366): resizes the node table to `NBIN`
and sets entry `i` to `(process = 1, bin = i, lower = fXLower + i*delta,
upper = fXLower + (i+1)*delta, 0.0, 0.0)` with
`delta = (fXUpper - fXLower)/NBIN`. -/
def InitNodes (NBIN : ℕ) (xLower xUpper : ℚ) : List GKNode :=
  let delta : ℚ := (xUpper - xLower) / (NBIN : ℚ)
  (List.range NBIN).map fun i =>
    ⟨true, i, xLower + (i : ℚ) * delta, xLower + ((i : ℚ) + 1) * delta, 0, 0⟩

/-- The constructor (header, lines 173–179): initialises the scalar
members and calls `InitNodes()`. -/
def construct (NBIN : ℕ) (rule : GKRule) (xlower xupper : ℚ)
    (tolerance : ℚ) : GKState :=
  { fIterationNumber := 0
    fXLower := xlower
    fXUpper := xupper
    fMaxRelativeError := tolerance
    fNodesTable := InitNodes NBIN xlower xupper
    fRule := rule }

/-- `SetXLower` (header, lines 312–316): assigns `fXLower` and re-runs
`InitNodes()` on the updated bounds. -/
def SetXLower (NBIN : ℕ) (xLower : ℚ) (s : GKState) : GKState :=
  { s with fXLower := xLower
           fNodesTable := InitNodes NBIN xLower s.fXUpper }

/-- `SetXUpper` (header, lines 323–327): assigns `fXUpper` and re-runs
`InitNodes()` on the updated bounds. -/
def SetXUpper (NBIN : ℕ) (xUpper : ℚ) (s : GKState) : GKState :=
  { s with fXUpper := xUpper
           fNodesTable := InitNodes NBIN s.fXLower xUpper }

/-- `SetMaxRelativeError` (header, lines 302–305): assigns
`fMaxRelativeError` and nothing else. -/
def SetMaxRelativeError (maxRelativeError : ℚ) (s : GKState) : GKState :=
  { s with fMaxRelativeError := maxRelativeError }

/-- The copy constructor (header, lines 187–195, and its cross-backend
variant, lines 202–211): copies `fIterationNumber`, `fXLower`,
`fXUpper`, `fMaxRelativeError` and `fRule` from `other` through the
getters, then calls `InitNodes()`; the source node table is never
copied. -/
def copyConstruct (NBIN : ℕ) (other : GKState) : GKState :=
  { fIterationNumber := other.fIterationNumber
    fXLower := other.fXLower
    fXUpper := other.fXUpper
    fMaxRelativeError := other.fMaxRelativeError
    fNodesTable := InitNodes NBIN other.fXLower other.fXUpper
    fRule := other.fRule }

/-- The assignment operator (header, lines 220–232, and its
cross-backend variant, lines 241–254).  The C++ code first tests
`this == &other`; the `same` flag models that pointer-identity test
(it is `true` exactly when source and target are the same object).
On identity it returns immediately; otherwise it assigns the five
scalar/rule members from `other` and calls `InitNodes()`. -/
def assign (NBIN : ℕ) (self other : GKState) (same : Bool) : GKState :=
  if same then self
  else
    { self with
        fIterationNumber := other.fIterationNumber
        fXLower := other.fXLower
        fXUpper := other.fXUpper
        fMaxRelativeError := other.fMaxRelativeError
        fRule := other.fRule
        fNodesTable := InitNodes NBIN other.fXLower other.fXUpper }

/-- `CountNodesToProcess` (header, lines 368–377): counts the nodes
whose `process` flag (tuple field 0) is truthy. -/
def CountNodesToProcess (nodes : List GKNode) : ℕ :=
  (nodes.filter fun nd => nd.process).length

/-- The parameter record `SetParametersTable` stores for evaluation
point `call` of node `nd` (header, lines 397–412):
`(bin, abscissa_X_P, abscissa_X_M, jacobian, KronrodWeight[call],
GaussWeight[call])` where the abscissas and the jacobian come from
`fRule.GetAbscissa(call, lower, upper)`. -/
def paramRecord (rule : GKRule) (call : ℕ) (nd : GKNode) : GKParam :=
  let a := rule.GetAbscissa call nd.lower nd.upper
  ⟨nd.binId, a.1, a.2.1, a.2.2, rule.KronrodWeight call, rule.GaussWeight call⟩

/-- The inner loop of `SetParametersTable` (header, lines 395–413): for
`call = 0 .. (NRULE+1)/2 - 1` it writes the parameter record of node
`nd` into slot `call*nNodes + i` of the table. -/
def writeNodeCalls (rule : GKRule) (m n i : ℕ) (nd : GKNode)
    (t : List GKParam) : List GKParam :=
  (List.range m).foldl
    (fun t call => t.set (call * n + i) (paramRecord rule call nd)) t

/-- The outer loop of `SetParametersTable` (header, lines 389–416):
iterates over all nodes, skips inactive ones (`continue`), writes the
`(NRULE+1)/2` records of each active node and increments the running
active-node index `i`. -/
def sptLoop (rule : GKRule) (m n : ℕ) (nodes : List GKNode)
    (acc : List GKParam × ℕ) : List GKParam × ℕ :=
  nodes.foldl
    (fun acc nd =>
      if nd.process then (writeNodeCalls rule m n acc.2 nd acc.1, acc.2 + 1)
      else acc) acc

/-- `SetParametersTable` (header, lines 379–422): counts the active
nodes `nNodes`, allocates a value-initialised table of
`nNodes*(NRULE+1)/2` records (C++ `size_t` arithmetic, hence the
truncating division applied after the product), fills it by the double
loop, and copies it into `fParametersTable`, which it returns here. -/
def SetParametersTable (NRULE : ℕ) (rule : GKRule)
    (nodes : List GKNode) : List GKParam :=
  let n := CountNodesToProcess nodes
  (sptLoop rule ((NRULE + 1) / 2) n nodes
    (List.replicate (n * (NRULE + 1) / 2) default, 0)).1

/-- `std::numeric_limits<double>::epsilon()`, the machine epsilon of
IEEE-754 double precision: `2^(-52)`. -/
noncomputable def machineEpsilon : ℝ := (2 : ℝ) ^ (-52 : ℤ)

/-- `GetError` (header, lines 343–347):
`std::max(epsilon, std::pow(200.0*std::fabs(delta), 1.5))`. -/
noncomputable def GetError (delta : ℝ) : ℝ :=
  max machineEpsilon ((200 * |delta|) ^ (1.5 : ℝ))

/-- Modelled from the spec: the refinement step applied by the driver
(`UpdateNodes`, whose body lives in
`hydra/detail/GaussKronrodAdaptiveQuadrature.inl`, not among the
available sources).  Per §4.5 of the specification an evaluated node is
either *retired* — removed from the active set permanently, i.e. its
`process` flag is cleared while its interval is kept for accumulation —
or *bisected* — replaced in place by two new active nodes splitting
`[lower, upper]` at the midpoint, each with fresh bin ids and zeroed
estimates. -/
inductive GKStep : List GKNode → List GKNode → Prop
  | retire (pre post : List GKNode) (nd : GKNode) :
      GKStep (pre ++ nd :: post) (pre ++ { nd with process := false } :: post)
  | bisect (pre post : List GKNode) (nd : GKNode) (id1 id2 : ℕ) :
      GKStep (pre ++ nd :: post)
        (pre ++ ⟨true, id1, nd.lower, (nd.lower + nd.upper) / 2, 0, 0⟩ ::
                ⟨true, id2, (nd.lower + nd.upper) / 2, nd.upper, 0, 0⟩ :: post)

/-- The node tables reachable by the refinement loop: the table produced
by `InitNodes` and everything obtained from it by retirement/bisection
steps. -/
inductive GKReachable (NBIN : ℕ) (xLower xUpper : ℚ) : List GKNode → Prop
  | init : GKReachable NBIN xLower xUpper (InitNodes NBIN xLower xUpper)
  | step {t t' : List GKNode} : GKReachable NBIN xLower xUpper t →
      GKStep t t' → GKReachable NBIN xLower xUpper t'

/-- `tiles ns a b` says the intervals of `ns`, in table order, form a
contiguous chain from `a` to `b`: the first node starts at `a`, each
node starts where the previous one ended, and the last node ends at
`b`. -/
def tiles : List GKNode → ℚ → ℚ → Prop
  | [], a, b => a = b
  | nd :: rest, a, b => nd.lower = a ∧ tiles rest nd.upper b

/-- Modelled from the spec: the body of `Integrate` lives in
`hydra/detail/GaussKronrodAdaptiveQuadrature.inl`, which is not among
the available sources.  Per §6/§8 of the specification a zero-width
domain (`xLower == xUpper`) yields `(0, 0)` without invoking the user
function; otherwise the engine expands the parameter table of the
current node table and evaluates the functor at the mapped abscissas
(§4.4), accumulating the Kronrod estimate and the Gauss/Kronrod
discrepancy (the adaptive re-refinement beyond the first evaluation
pass follows §4.5, whose exact retirement policy the specification
leaves open in §9, and is abstracted to this single pass here).  The
model additionally returns the list of points at which the functor is
invoked, so that "the user functor is never invoked" is expressible. -/
def Integrate (NRULE : ℕ) (f : ℚ → ℚ) (s : GKState) :
    (ℚ × ℚ) × List ℚ :=
  if s.fXLower = s.fXUpper then ((0, 0), [])
  else
    let params := SetParametersTable NRULE s.fRule s.fNodesTable
    let pts := params.flatMap fun p => [p.abscissaXP, p.abscissaXM]
    let kronrod :=
      (params.map fun p =>
        p.jacobian * p.kronrodWeight * (f p.abscissaXP + f p.abscissaXM)).sum
    let gauss :=
      (params.map fun p =>
        p.jacobian * p.gaussWeight * (f p.abscissaXP + f p.abscissaXM)).sum
    ((kronrod, |kronrod - gauss|), pts)

/-- A concrete rule instance used for concrete evaluations: unit
weights and the affine abscissa map with `jacobian = (upper-lower)/2`. -/
def demoRule : GKRule :=
  ⟨fun _ => 1, fun _ => 1, fun _ lower upper => (lower, upper, (upper - lower) / 2)⟩

/-- A concrete active node used for concrete evaluations. -/
def cexNode : GKNode := ⟨true, 0, 0, 1, 0, 0⟩

/-! ## Helper lemmas about `tiles` -/

lemma tiles_append (pre rest : List GKNode) (a b : ℚ) :
    tiles (pre ++ rest) a b ↔ ∃ c, tiles pre a c ∧ tiles rest c b := by
  induction pre generalizing a with
  | nil =>
      constructor
      · intro h; exact ⟨a, rfl, h⟩
      · rintro ⟨c, hc, h⟩
        have hc' : a = c := hc
        exact hc' ▸ h
  | cons nd pre ih =>
      constructor
      · rintro ⟨hl, h⟩
        obtain ⟨c, h1, h2⟩ := (ih _).mp h
        exact ⟨c, ⟨hl, h1⟩, h2⟩
      · rintro ⟨c, ⟨hl, h1⟩, h2⟩
        exact ⟨hl, (ih _).mpr ⟨c, h1, h2⟩⟩

lemma tiles_le {ns : List GKNode} {a b : ℚ} (ht : tiles ns a b)
    (hw : ∀ nd ∈ ns, nd.lower ≤ nd.upper) : a ≤ b := by
  induction ns generalizing a with
  | nil => exact le_of_eq ht
  | cons nd rest ih =>
      obtain ⟨hl, hrest⟩ := ht
      have h1 : nd.lower ≤ nd.upper := hw nd (List.mem_cons_self _ _)
      have h2 : nd.upper ≤ b := ih hrest fun x hx => hw x (List.mem_cons_of_mem _ hx)
      linarith [hl ▸ h1]

lemma tiles_range' (NBIN : ℕ) (xLower xUpper : ℚ) :
    ∀ (c j : ℕ),
      tiles ((List.range' j c).map fun i =>
          (⟨true, i, xLower + (i : ℚ) * ((xUpper - xLower) / (NBIN : ℚ)),
            xLower + ((i : ℚ) + 1) * ((xUpper - xLower) / (NBIN : ℚ)), 0, 0⟩ : GKNode))
        (xLower + (j : ℚ) * ((xUpper - xLower) / (NBIN : ℚ)))
        (xLower + ((j + c : ℕ) : ℚ) * ((xUpper - xLower) / (NBIN : ℚ))) := by
  intro c
  induction c with
  | zero => intro j; show _ = _; norm_num
  | succ c ih =>
      intro j
      have h := ih (j + 1)
      rw [List.range'_succ, List.map_cons]
      refine ⟨rfl, ?_⟩
      have e1 : ((j + 1 : ℕ) : ℚ) = (j : ℚ) + 1 := by push_cast; ring
      have e2 : j + 1 + c = j + (c + 1) := by omega
      rw [e1, e2] at h
      exact h

lemma tiles_InitNodes {NBIN : ℕ} (hN : 0 < NBIN) (xLower xUpper : ℚ) :
    tiles (InitNodes NBIN xLower xUpper) xLower xUpper := by
  have h := tiles_range' NBIN xLower xUpper NBIN 0
  have hne : (NBIN : ℚ) ≠ 0 := Nat.cast_ne_zero.mpr hN.ne'
  have h1 : xLower + ((0 : ℕ) : ℚ) * ((xUpper - xLower) / (NBIN : ℚ)) = xLower := by
    norm_num
  have h2 : xLower + ((0 + NBIN : ℕ) : ℚ) * ((xUpper - xLower) / (NBIN : ℚ))
      = xUpper := by
    push_cast
    field_simp
  rw [h1, h2] at h
  simpa [InitNodes, List.range_eq_range'] using h

lemma InitNodes_width {NBIN : ℕ} {xLower xUpper : ℚ} {nd : GKNode}
    (h : nd ∈ InitNodes NBIN xLower xUpper) :
    nd.upper - nd.lower = (xUpper - xLower) / (NBIN : ℚ) := by
  simp only [InitNodes, List.mem_map, List.mem_range] at h
  obtain ⟨i, -, rfl⟩ := h
  ring

lemma tiles_subset {ns : List GKNode} {a b : ℚ} (ht : tiles ns a b)
    (hw : ∀ nd ∈ ns, nd.lower ≤ nd.upper) {nd : GKNode} (hnd : nd ∈ ns) :
    Set.Icc nd.lower nd.upper ⊆ Set.Icc a b := by
  obtain ⟨pre, post, rfl⟩ := List.append_of_mem hnd
  obtain ⟨c, hpre, hl, hpost⟩ := (tiles_append _ _ _ _).mp ht
  have ha : a ≤ nd.lower := hl ▸ tiles_le hpre fun x hx =>
    hw x (List.mem_append_left _ hx)
  have hb : nd.upper ≤ b := tiles_le hpost fun x hx =>
    hw x (List.mem_append_right _ (List.mem_cons_of_mem _ hx))
  exact Set.Icc_subset_Icc ha hb

lemma tiles_covers {ns : List GKNode} {a b : ℚ} (ht : tiles ns a b)
    (hne : ns ≠ []) {x : ℚ} (hx : x ∈ Set.Icc a b) :
    ∃ nd ∈ ns, x ∈ Set.Icc nd.lower nd.upper := by
  induction ns generalizing a with
  | nil => exact absurd rfl hne
  | cons nd rest ih =>
      obtain ⟨hl, hrest⟩ := ht
      rcases eq_or_ne rest [] with rfl | hrest_ne
      · have hb : nd.upper = b := hrest
        exact ⟨nd, List.mem_cons_self _ _, by
          rw [hl, hb]; exact hx⟩
      · by_cases hcase : x ≤ nd.upper
        · exact ⟨nd, List.mem_cons_self _ _, ⟨hl ▸ hx.1, hcase⟩⟩
        · obtain ⟨nd2, hmem, hx2⟩ := ih hrest hrest_ne ⟨le_of_not_le hcase, hx.2⟩
          exact ⟨nd2, List.mem_cons_of_mem _ hmem, hx2⟩

lemma tiles_biUnion {ns : List GKNode} {a b : ℚ} (ht : tiles ns a b)
    (hw : ∀ nd ∈ ns, nd.lower ≤ nd.upper) (hne : ns ≠ []) :
    (⋃ nd ∈ ns, Set.Icc nd.lower nd.upper) = Set.Icc a b := by
  ext x
  simp only [Set.mem_iUnion, exists_prop]
  constructor
  · rintro ⟨nd, hnd, hx⟩; exact tiles_subset ht hw hnd hx
  · exact tiles_covers ht hne

/-! ## Preservation of the tiling by the refinement steps -/

lemma GKStep.tiles_preserved {t t' : List GKNode} {a b : ℚ}
    (hs : GKStep t t') (ht : tiles t a b) : tiles t' a b := by
  cases hs with
  | retire pre post nd =>
      obtain ⟨c, hpre, hl, hpost⟩ := (tiles_append _ _ _ _).mp ht
      exact (tiles_append _ _ _ _).mpr ⟨c, hpre, hl, hpost⟩
  | bisect pre post nd id1 id2 =>
      obtain ⟨c, hpre, hl, hpost⟩ := (tiles_append _ _ _ _).mp ht
      exact (tiles_append _ _ _ _).mpr ⟨c, hpre, hl, rfl, hpost⟩

lemma GKStep.widths_preserved {t t' : List GKNode}
    (hs : GKStep t t') (hw : ∀ nd ∈ t, nd.lower ≤ nd.upper) :
    ∀ nd ∈ t', nd.lower ≤ nd.upper := by
  cases hs with
  | retire pre post nd =>
      intro x hx
      rcases List.mem_append.mp hx with h | h
      · exact hw x (List.mem_append_left _ h)
      · rcases List.mem_cons.mp h with rfl | h
        · exact hw nd (List.mem_append_right _ (List.mem_cons_self _ _))
        · exact hw x (List.mem_append_right _ (List.mem_cons_of_mem _ h))
  | bisect pre post nd id1 id2 =>
      have hnd : nd.lower ≤ nd.upper :=
        hw nd (List.mem_append_right _ (List.mem_cons_self _ _))
      intro x hx
      rcases List.mem_append.mp hx with h | h
      · exact hw x (List.mem_append_left _ h)
      · rcases List.mem_cons.mp h with rfl | h
        · show nd.lower ≤ (nd.lower + nd.upper) / 2; linarith
        · rcases List.mem_cons.mp h with rfl | h
          · show (nd.lower + nd.upper) / 2 ≤ nd.upper; linarith
          · exact hw x (List.mem_append_right _ (List.mem_cons_of_mem _ h))

lemma GKStep.ne_nil {t t' : List GKNode} (hs : GKStep t t') : t' ≠ [] := by
  cases hs with
  | retire pre post nd => exact List.append_ne_nil_of_right_ne_nil _ (by simp)
  | bisect pre post nd id1 id2 =>
      exact List.append_ne_nil_of_right_ne_nil _ (by simp)

lemma GKReachable.invariant {NBIN : ℕ} {xLower xUpper : ℚ}
    {t : List GKNode} (hr : GKReachable NBIN xLower xUpper t)
    (hN : 0 < NBIN) (hord : xLower ≤ xUpper) :
    tiles t xLower xUpper ∧ (∀ nd ∈ t, nd.lower ≤ nd.upper) ∧ t ≠ [] := by
  induction hr with
  | init =>
      refine ⟨tiles_InitNodes hN _ _, fun nd hnd => ?_, ?_⟩
      · have hwidth := InitNodes_width hnd
        have hN' : (0 : ℚ) < (NBIN : ℚ) := by exact_mod_cast hN
        have : (0 : ℚ) ≤ (xUpper - xLower) / (NBIN : ℚ) :=
          div_nonneg (by linarith) (le_of_lt hN')
        linarith
      · simp [InitNodes, hN.ne']
  | step hr hs ih =>
      obtain ⟨ht, hw, -⟩ := ih
      exact ⟨hs.tiles_preserved ht, hs.widths_preserved hw, hs.ne_nil⟩

/-! ## Characterisation of `SetParametersTable` -/

lemma writeNodeCalls_length (rule : GKRule) (m n i : ℕ) (nd : GKNode)
    (t : List GKParam) :
    (writeNodeCalls rule m n i nd t).length = t.length := by
  unfold writeNodeCalls
  generalize List.range m = l
  induction l generalizing t with
  | nil => rfl
  | cons c l ih => rw [List.foldl_cons, ih, List.length_set]

lemma sptLoop_fst_length (rule : GKRule) (m n : ℕ) (nodes : List GKNode)
    (t : List GKParam) (i : ℕ) :
    ((sptLoop rule m n nodes (t, i)).1).length = t.length := by
  induction nodes generalizing t i with
  | nil => rfl
  | cons nd rest ih =>
      by_cases h : nd.process
      · simp only [sptLoop, List.foldl_cons, h, if_true]
        exact (ih _ _).trans (writeNodeCalls_length rule m n i nd t)
      · simp only [sptLoop, List.foldl_cons, h, if_false]
        exact ih _ _

lemma sptLoop_filter (rule : GKRule) (m n : ℕ) (nodes : List GKNode)
    (acc : List GKParam × ℕ) :
    sptLoop rule m n nodes acc
      = sptLoop rule m n (nodes.filter fun nd => nd.process) acc := by
  induction nodes generalizing acc with
  | nil => rfl
  | cons nd rest ih =>
      by_cases h : nd.process
      · simp only [sptLoop, List.foldl_cons, List.filter_cons, h, if_true]
        exact ih _
      · simp only [sptLoop, List.foldl_cons, List.filter_cons, h, if_false,
          Bool.false_eq_true]
        exact ih _

lemma writeNodeCalls_getElem? (rule : GKRule) (m n i : ℕ) (hi : i < n)
    (nd : GKNode) (t : List GKParam) (hlen : n * m ≤ t.length) (j : ℕ) :
    (writeNodeCalls rule m n i nd t)[j]? =
      if j % n = i ∧ j / n < m then some (paramRecord rule (j / n) nd)
      else t[j]? := by
  induction m generalizing t with
  | zero =>
      rw [if_neg (by rintro ⟨-, h⟩; exact Nat.not_lt_zero _ h)]
      rfl
  | succ m ih =>
      have hstep : writeNodeCalls rule (m + 1) n i nd t
          = (writeNodeCalls rule m n i nd t).set (m * n + i)
              (paramRecord rule m nd) := by
        unfold writeNodeCalls
        rw [List.range_succ, List.foldl_append, List.foldl_cons, List.foldl_nil]
      have hlen' : n * m ≤ t.length :=
        le_trans (Nat.mul_le_mul_left n (Nat.le_succ m)) hlen
      rw [hstep]
      by_cases hj : j = m * n + i
      · subst hj
        have hlt : m * n + i < (writeNodeCalls rule m n i nd t).length := by
          rw [writeNodeCalls_length]
          calc m * n + i < m * n + n := by omega
            _ = n * (m + 1) := by ring
            _ ≤ t.length := hlen
        rw [List.getElem?_set_eq_of_lt _ hlt]
        have hmod : (m * n + i) % n = i := by
          rw [Nat.mul_comm m n, Nat.mul_add_mod, Nat.mod_eq_of_lt hi]
        have hdiv : (m * n + i) / n = m := by
          rw [Nat.mul_comm m n, Nat.mul_add_div (by omega),
            Nat.div_eq_of_lt hi, Nat.add_zero]
        rw [if_pos ⟨hmod, by rw [hdiv]; exact Nat.lt_succ_self m⟩, hdiv]
      · rw [List.getElem?_set_ne fun h => hj h.symm, ih t hlen']
        by_cases hc : j % n = i ∧ j / n < m
        · rw [if_pos hc, if_pos ⟨hc.1, Nat.lt_succ_of_lt hc.2⟩]
        · have hc2 : ¬(j % n = i ∧ j / n < m + 1) := by
            rintro ⟨h1, h2⟩
            rcases Nat.lt_succ_iff_lt_or_eq.mp h2 with h3 | h3
            · exact hc ⟨h1, h3⟩
            · exact hj (by rw [← Nat.div_add_mod j n, h1, h3]; ring)
          rw [if_neg hc, if_neg hc2]

lemma sptLoop_getElem? (rule : GKRule) (m n : ℕ) (act : List GKNode) :
    ∀ (t : List GKParam) (i j : ℕ),
      (∀ nd ∈ act, nd.process = true) → i + act.length ≤ n →
      n * m ≤ t.length →
      ((sptLoop rule m n act (t, i)).1)[j]? =
        (if i ≤ j % n ∧ j % n < i + act.length ∧ j / n < m
         then (act[j % n - i]?).map (paramRecord rule (j / n))
         else t[j]?) := by
  induction act with
  | nil =>
      intro t i j _ _ _
      rw [if_neg (by rintro ⟨h1, h2, -⟩; simp only [List.length_nil] at h2; omega)]
      rfl
  | cons nd rest ih =>
      intro t i j hproc hle hlen
      have hp : nd.process = true := hproc nd (List.mem_cons_self _ _)
      have hstep : sptLoop rule m n (nd :: rest) (t, i)
          = sptLoop rule m n rest (writeNodeCalls rule m n i nd t, i + 1) := by
        simp only [sptLoop, List.foldl_cons, hp, if_true]
      have hlen2 : n * m ≤ (writeNodeCalls rule m n i nd t).length := by
        rw [writeNodeCalls_length]; exact hlen
      have hle2 : (i + 1) + rest.length ≤ n := by
        simp only [List.length_cons] at hle; omega
      have hi : i < n := by
        simp only [List.length_cons] at hle; omega
      rw [hstep,
        ih _ (i + 1) j (fun x hx => hproc x (List.mem_cons_of_mem _ hx)) hle2 hlen2,
        writeNodeCalls_getElem? rule m n i hi nd t hlen]
      simp only [List.length_cons]
      obtain ⟨k, hk⟩ : ∃ k, j % n = k := ⟨_, rfl⟩
      obtain ⟨d, hd⟩ : ∃ d, j / n = d := ⟨_, rfl⟩
      rw [hk, hd]
      by_cases hA : k = i ∧ d < m
      · rw [if_neg (by rintro ⟨h1, -, -⟩; omega), if_pos hA,
          if_pos ⟨le_of_eq hA.1.symm, by omega, hA.2⟩]
        have h0 : k - i = 0 := by omega
        rw [h0, List.getElem?_cons_zero, Option.map_some']
      · by_cases hB : i + 1 ≤ k ∧ k < i + 1 + rest.length ∧ d < m
        · rw [if_pos hB, if_pos ⟨by omega, by omega, hB.2.2⟩]
          have hsucc : k - i = (k - (i + 1)) + 1 := by omega
          rw [hsucc, List.getElem?_cons_succ]
        · have hC : ¬(i ≤ k ∧ k < i + (rest.length + 1) ∧ d < m) := by
            rintro ⟨h1, h2, h3⟩
            rcases eq_or_lt_of_le h1 with rfl | h4
            · exact hA ⟨rfl, h3⟩
            · exact hB ⟨h4, by omega, h3⟩
          rw [if_neg hB, if_neg hA, if_neg hC]

lemma SetParametersTable_length (NRULE : ℕ) (rule : GKRule)
    (nodes : List GKNode) :
    (SetParametersTable NRULE rule nodes).length
      = CountNodesToProcess nodes * (NRULE + 1) / 2 := by
  unfold SetParametersTable
  rw [sptLoop_fst_length, List.length_replicate]

lemma mul_div_two_le (n k : ℕ) : n * (k / 2) ≤ n * k / 2 := by
  rw [Nat.le_div_iff_mul_le (by norm_num : 0 < 2)]
  calc n * (k / 2) * 2 = n * (k / 2 * 2) := by ring
    _ ≤ n * k := Nat.mul_le_mul_left n (Nat.div_mul_le_self k 2)

lemma flat_getElem? (f : ℕ → GKNode → GKParam) (act : List GKNode) :
    ∀ (m j : ℕ),
      ((List.range m).flatMap fun c => act.map (f c))[j]? =
        if j < m * act.length
        then (act[j % act.length]?).map (f (j / act.length))
        else none := by
  intro m
  induction m with
  | zero => intro j; simp
  | succ m ih =>
      intro j
      have hlen : ∀ k, ((List.range k).flatMap fun c => act.map (f c)).length
          = k * act.length := by
        intro k
        induction k with
        | zero => simp
        | succ k ihk =>
            rw [List.range_succ, List.flatMap_append, List.length_append, ihk,
              List.flatMap_cons, List.flatMap_nil, List.append_nil,
              List.length_map]
            ring
      rw [List.range_succ, List.flatMap_append, List.flatMap_cons,
        List.flatMap_nil, List.append_nil, List.getElem?_append, hlen m]
      rcases Nat.eq_zero_or_pos act.length with hL | hL
      · have hact : act = [] := List.length_eq_zero.mp hL
        subst hact
        simp
      · by_cases hj : j < m * act.length
        · rw [if_pos hj, ih j, if_pos hj,
            if_pos (lt_of_lt_of_le hj
              (Nat.mul_le_mul_right _ (Nat.le_succ m)))]
        · rw [if_neg hj, List.getElem?_map]
          have h1 : m ≤ j / act.length :=
            (Nat.le_div_iff_mul_le hL).mpr (by omega)
          by_cases hj2 : j < (m + 1) * act.length
          · have hdiv : j / act.length = m := by
              have h2 : j / act.length < m + 1 :=
                (Nat.div_lt_iff_lt_mul hL).mpr hj2
              omega
            have hmod : j % act.length = j - m * act.length := by
              have h3 := Nat.div_add_mod j act.length
              rw [hdiv] at h3
              obtain ⟨P, hP⟩ : ∃ P, act.length * m = P := ⟨_, rfl⟩
              rw [hP] at h3
              rw [Nat.mul_comm m act.length, hP]
              omega
            rw [if_pos hj2, hdiv, hmod]
          · have h4 : (m + 1) * act.length = m * act.length + act.length := by
              ring
            have h5 : act.length ≤ j - m * act.length := by
              obtain ⟨P, hP⟩ : ∃ P, m * act.length = P := ⟨_, rfl⟩
              rw [hP] at h4 ⊢
              omega
            rw [if_neg hj2, List.getElem?_eq_none h5, Option.map_none']

/-- For an odd rule order the parameter table produced by
`SetParametersTable` is exactly the call-major concatenation of the
per-active-node parameter records: entry `call*n + i` is the record of
evaluation point `call` for the `i`-th active node. -/
lemma SetParametersTable_eq_flat (NRULE : ℕ) (rule : GKRule)
    (nodes : List GKNode) (hodd : NRULE % 2 = 1) :
    SetParametersTable NRULE rule nodes
      = (List.range ((NRULE + 1) / 2)).flatMap
          fun c => (nodes.filter fun nd => nd.process).map (paramRecord rule c) := by
  have h2 : 2 ∣ NRULE + 1 := by omega
  apply List.ext_getElem?
  intro j
  rw [flat_getElem?]
  simp only [SetParametersTable]
  rw [sptLoop_filter]
  have hproc : ∀ nd ∈ (nodes.filter fun nd => nd.process), nd.process = true := by
    intro nd hnd
    exact (List.mem_filter.mp hnd).2
  have hle : 0 + (nodes.filter fun nd => nd.process).length
      ≤ CountNodesToProcess nodes := by
    unfold CountNodesToProcess
    omega
  have hlen : CountNodesToProcess nodes * ((NRULE + 1) / 2)
      ≤ (List.replicate (CountNodesToProcess nodes * (NRULE + 1) / 2)
          (default : GKParam)).length := by
    rw [List.length_replicate]
    exact mul_div_two_le _ _
  rw [sptLoop_getElem? rule _ _ _ _ 0 j hproc hle hlen]
  have hn : (nodes.filter fun nd => nd.process).length
      = CountNodesToProcess nodes := rfl
  rcases Nat.eq_zero_or_pos (CountNodesToProcess nodes) with hL | hL
  · rw [hn, hL]
    rw [if_neg (by rintro ⟨-, h, -⟩; omega)]
    rw [if_neg (by omega)]
    rw [List.getElem?_eq_none]
    simp
  · rw [hn]
    have hmod : j % CountNodesToProcess nodes < CountNodesToProcess nodes :=
      Nat.mod_lt j hL
    have hsize : CountNodesToProcess nodes * (NRULE + 1) / 2
        = ((NRULE + 1) / 2) * CountNodesToProcess nodes := by
      rw [Nat.mul_div_assoc _ h2, Nat.mul_comm]
    by_cases hc : j / CountNodesToProcess nodes < (NRULE + 1) / 2
    · have hj : j < (NRULE + 1) / 2 * CountNodesToProcess nodes :=
        (Nat.div_lt_iff_lt_mul hL).mp hc
      rw [if_pos ⟨Nat.zero_le _, by omega, hc⟩, if_pos hj, Nat.sub_zero]
    · have hj : ¬ j < (NRULE + 1) / 2 * CountNodesToProcess nodes :=
        fun h => hc ((Nat.div_lt_iff_lt_mul hL).mpr h)
      rw [if_neg (by rintro ⟨-, -, h⟩; exact hc h), if_neg hj]
      rw [List.getElem?_eq_none]
      rw [List.length_replicate, hsize]
      omega

lemma filter_flatMap (l : List ℕ) (g : ℕ → List GKParam) (p : GKParam → Bool) :
    (l.flatMap g).filter p = l.flatMap fun a => (g a).filter p := by
  induction l with
  | nil => rfl
  | cons a l ih => rw [List.flatMap_cons, List.filter_append, ih, List.flatMap_cons]

lemma flatMap_singleton_map (l : List ℕ) (f : ℕ → GKParam) :
    (l.flatMap fun a => [f a]) = l.map f := by
  induction l with
  | nil => rfl
  | cons a l ih => rw [List.flatMap_cons, List.map_cons, ih]; rfl

lemma filter_eq_singleton_of_nodup_keys {l : List GKNode}
    (h : (l.map GKNode.binId).Nodup) {nd : GKNode} (hnd : nd ∈ l) :
    (l.filter fun x => x.binId = nd.binId) = [nd] := by
  induction l with
  | nil => cases hnd
  | cons a rest ih =>
      rw [List.map_cons, List.nodup_cons] at h
      obtain ⟨hkey, hrest⟩ := h
      rcases List.mem_cons.mp hnd with rfl | hmem
      · rw [List.filter_cons_of_pos (by simp)]
        have hnil : (rest.filter fun x => x.binId = nd.binId) = [] := by
          rw [List.filter_eq_nil_iff]
          intro x hx hpx
          simp only [decide_eq_true_eq] at hpx
          exact hkey (by rw [← hpx]; exact List.mem_map_of_mem GKNode.binId hx)
        rw [hnil]
      · rw [List.filter_cons_of_neg (by
          simp only [decide_eq_true_eq]
          exact fun heq => hkey
            (by rw [heq]; exact List.mem_map_of_mem GKNode.binId hmem))]
        exact ih hrest hmem

/-! ## Claim theorems -/

/-- Counterexample to claim C2 as stated: with rule order `NRULE = 2`
and one active node the table has `⌊1*(2+1)/2⌋ = 1` record, not
`1 * ⌈(2+1)/2⌉ = 2`; the code sizes the table with truncating `size_t`
division, which matches `n * ⌈(NRULE+1)/2⌉` only for odd `NRULE`. -/
theorem claim_C2_counterexample :
    (SetParametersTable 2 demoRule [cexNode]).length
      ≠ CountNodesToProcess [cexNode] * ((2 + 2) / 2) := by
  rw [SetParametersTable_length]
  decide

/-- Claim C2 (amended): for every odd rule order `NRULE` — the only
orders for which Gauss-Kronrod rules exist — the parameter table
produced by `SetParametersTable` has exactly
`n * ⌈(NRULE+1)/2⌉` records (written `(NRULE+2)/2` in `ℕ`), where `n`
is the number of active nodes counted by `CountNodesToProcess`. -/
theorem claim_C2_table_size (NRULE : ℕ) (rule : GKRule)
    (nodes : List GKNode) (hodd : NRULE % 2 = 1) :
    (SetParametersTable NRULE rule nodes).length
      = CountNodesToProcess nodes * ((NRULE + 2) / 2) := by
  rw [SetParametersTable_length,
    Nat.mul_div_assoc _ (by omega : 2 ∣ NRULE + 1)]
  congr 1
  omega

/-- Concrete instance of the amended C2: `NRULE = 3`, one active
node. -/
theorem claim_C2_witness :
    3 % 2 = 1 ∧ (SetParametersTable 3 demoRule [cexNode]).length
      = CountNodesToProcess [cexNode] * ((3 + 2) / 2) :=
  ⟨rfl, claim_C2_table_size 3 demoRule [cexNode] rfl⟩

/-- Counterexample to claim C3 as stated: with rule order `NRULE = 2`
and a single active node, the group of records keyed by that node's
`binId` has 1 entry, not `⌈(2+1)/2⌉ = 2`. -/
theorem claim_C3_counterexample :
    ((SetParametersTable 2 demoRule [cexNode]).filter
        fun p => p.binId = cexNode.binId).length ≠ (2 + 2) / 2 := by
  decide

/-- Claim C3 (amended): for every odd rule order `NRULE` (the orders
for which Gauss-Kronrod rules exist) and any node table with pairwise
distinct `binId`s, grouping the output of `SetParametersTable` by
`binId` yields exactly one group per active node: the group keyed by an
active node's `binId` has exactly `⌈(NRULE+1)/2⌉` records (written
`(NRULE+2)/2` in `ℕ`), each of which is the record built from the
rule's `GetAbscissa` on that node's bounds together with the Kronrod
and Gauss weights of its evaluation point; every record carries the
`binId` of some active node, and no record carries the `binId` of an
inactive node. -/
theorem claim_C3_grouping (NRULE : ℕ) (rule : GKRule)
    (nodes : List GKNode) (hodd : NRULE % 2 = 1)
    (hids : (nodes.map GKNode.binId).Nodup) :
    (∀ nd ∈ nodes, nd.process = true →
      ((SetParametersTable NRULE rule nodes).filter
          fun p => p.binId = nd.binId).length = (NRULE + 2) / 2
      ∧ (∀ p ∈ SetParametersTable NRULE rule nodes, p.binId = nd.binId →
          ∃ call, call < (NRULE + 2) / 2 ∧ p = paramRecord rule call nd))
    ∧ (∀ p ∈ SetParametersTable NRULE rule nodes,
        ∃ nd ∈ nodes, nd.process = true ∧ p.binId = nd.binId)
    ∧ (∀ nd ∈ nodes, nd.process = false →
        ∀ p ∈ SetParametersTable NRULE rule nodes, p.binId ≠ nd.binId) := by
  have heq : (NRULE + 2) / 2 = (NRULE + 1) / 2 := by omega
  have hact_nodup : ((nodes.filter fun nd => nd.process).map GKNode.binId).Nodup :=
    hids.sublist (List.Sublist.map _ (List.filter_sublist _))
  have hgroup : ∀ nd ∈ nodes, nd.process = true →
      ((SetParametersTable NRULE rule nodes).filter
        fun p => p.binId = nd.binId)
        = (List.range ((NRULE + 1) / 2)).map fun c => paramRecord rule c nd := by
    intro nd hnd hp
    have hnd_act : nd ∈ nodes.filter fun x => x.process :=
      List.mem_filter.mpr ⟨hnd, hp⟩
    rw [SetParametersTable_eq_flat _ _ _ hodd, filter_flatMap]
    have hinner : ∀ c : ℕ,
        (((nodes.filter fun x => x.process).map (paramRecord rule c)).filter
          fun p => p.binId = nd.binId) = [paramRecord rule c nd] := by
      intro c
      rw [List.filter_map]
      have hpred : ((fun p => decide (p.binId = nd.binId)) ∘ paramRecord rule c)
          = fun x => decide (x.binId = nd.binId) := rfl
      rw [hpred, filter_eq_singleton_of_nodup_keys hact_nodup hnd_act,
        List.map_singleton]
    simp only [hinner]
    exact flatMap_singleton_map _ _
  refine ⟨?_, ?_, ?_⟩
  · intro nd hnd hp
    refine ⟨?_, ?_⟩
    · rw [hgroup nd hnd hp, List.length_map, List.length_range, heq]
    · intro p hpmem hpbin
      have hmem2 : p ∈ (SetParametersTable NRULE rule nodes).filter
          fun q => q.binId = nd.binId :=
        List.mem_filter.mpr ⟨hpmem, by simpa using hpbin⟩
      rw [hgroup nd hnd hp] at hmem2
      obtain ⟨c, hc, rfl⟩ := List.mem_map.mp hmem2
      exact ⟨c, by rw [heq]; exact List.mem_range.mp hc, rfl⟩
  · intro p hpmem
    rw [SetParametersTable_eq_flat _ _ _ hodd] at hpmem
    obtain ⟨c, -, hmem⟩ := List.mem_flatMap.mp hpmem
    obtain ⟨nd', hnd', rfl⟩ := List.mem_map.mp hmem
    have h1 := List.mem_filter.mp hnd'
    exact ⟨nd', h1.1, h1.2, rfl⟩
  · intro nd hnd hp p hpmem hpbin
    rw [SetParametersTable_eq_flat _ _ _ hodd] at hpmem
    obtain ⟨c, -, hmem⟩ := List.mem_flatMap.mp hpmem
    obtain ⟨nd', hnd', rfl⟩ := List.mem_map.mp hmem
    have h1 := List.mem_filter.mp hnd'
    have hface : nd' = nd :=
      List.inj_on_of_nodup_map hids h1.1 hnd hpbin
    rw [hface] at h1
    rw [hp] at h1
    exact Bool.false_ne_true h1.2

/-- Concrete instance of the amended C3: `NRULE = 3`, one active node;
its group has `⌈(3+1)/2⌉ = 2` records. -/
theorem claim_C3_witness :
    3 % 2 = 1 ∧ ((SetParametersTable 3 demoRule [cexNode]).filter
        fun p => p.binId = cexNode.binId).length = (3 + 2) / 2 :=
  ⟨rfl, ((claim_C3_grouping 3 demoRule [cexNode] rfl (by decide)).1 cexNode
      (List.mem_singleton.mpr rfl) rfl).1⟩

/-- Claim C1: after `InitNodes` with bounds `xLower, xUpper` the node
table has exactly `NBIN` entries; entry `i` has `process = true`,
`binId = i`, `lower = xLower + i*(xUpper-xLower)/NBIN`,
`upper = xLower + (i+1)*(xUpper-xLower)/NBIN` and
`integral = error = 0`; the intervals chain contiguously (consecutive
entries share their boundary), all have the same width
`(xUpper-xLower)/NBIN`, and their union is exactly
`[xLower, xUpper]`. -/
theorem claim_C1_InitNodes_partition (NBIN : ℕ) (xLower xUpper : ℚ)
    (hN : 0 < NBIN) :
    (InitNodes NBIN xLower xUpper).length = NBIN
    ∧ (∀ i, i < NBIN →
        (InitNodes NBIN xLower xUpper)[i]? =
          some ⟨true, i, xLower + (i : ℚ) * (xUpper - xLower) / (NBIN : ℚ),
                xLower + ((i : ℚ) + 1) * (xUpper - xLower) / (NBIN : ℚ), 0, 0⟩)
    ∧ tiles (InitNodes NBIN xLower xUpper) xLower xUpper
    ∧ (∀ nd ∈ InitNodes NBIN xLower xUpper,
        nd.upper - nd.lower = (xUpper - xLower) / (NBIN : ℚ))
    ∧ (⋃ nd ∈ InitNodes NBIN xLower xUpper, Set.Icc nd.lower nd.upper)
        = Set.Icc xLower xUpper := by
  refine ⟨by simp [InitNodes], ?_, tiles_InitNodes hN _ _,
    fun nd h => InitNodes_width h, ?_⟩
  · intro i hi
    have hrange : (List.range NBIN)[i]? = some i := by
      rw [List.getElem?_eq_getElem (by simpa using hi)]
      simp
    simp only [InitNodes]
    rw [List.getElem?_map, hrange]
    show some _ = some _
    congr 1
    rw [GKNode.mk.injEq]
    exact ⟨rfl, rfl, by ring, by ring, rfl, rfl⟩
  · by_cases hord : xLower ≤ xUpper
    · have hw : ∀ nd ∈ InitNodes NBIN xLower xUpper, nd.lower ≤ nd.upper := by
        intro nd h
        have := InitNodes_width h
        have hN' : (0 : ℚ) < (NBIN : ℚ) := by exact_mod_cast hN
        nlinarith [div_nonneg (sub_nonneg.mpr hord) hN'.le]
      exact tiles_biUnion (tiles_InitNodes hN _ _) hw (by simp [InitNodes, hN.ne'])
    · push_neg at hord
      rw [Set.Icc_eq_empty (not_le.mpr hord)]
      rw [Set.eq_empty_iff_forall_not_mem]
      intro x hx
      simp only [Set.mem_iUnion, exists_prop] at hx
      obtain ⟨nd, hnd, hmem⟩ := hx
      have hwidth := InitNodes_width hnd
      have hN' : (0 : ℚ) < (NBIN : ℚ) := by exact_mod_cast hN
      have : (xUpper - xLower) / (NBIN : ℚ) < 0 :=
        div_neg_of_neg_of_pos (by linarith) hN'
      have h1 := hmem.1
      have h2 := hmem.2
      simp only [Set.mem_Icc] at hmem
      linarith [hmem.1, hmem.2]

/-- Concrete instance of C1: `NBIN = 4`, bounds `[0, 1]`. -/
theorem claim_C1_witness :
    0 < 4 ∧ (InitNodes 4 0 1).length = 4 :=
  ⟨by decide, (claim_C1_InitNodes_partition 4 0 1 (by decide)).1⟩

/-- Claim C4: `GetError delta` equals
`max(machineEpsilon, (200*|delta|)^1.5)` for every real `delta`
(negative ones included, the absolute value being taken before
exponentiation), is therefore bounded below by machine epsilon, and is
monotone non-decreasing in `|delta|`. -/
theorem claim_C4_GetError (d e : ℝ) (h : |d| ≤ |e|) :
    GetError d = max machineEpsilon ((200 * |d|) ^ (1.5 : ℝ))
    ∧ machineEpsilon ≤ GetError d
    ∧ GetError d ≤ GetError e := by
  refine ⟨rfl, le_max_left _ _, ?_⟩
  apply max_le_max le_rfl
  apply Real.rpow_le_rpow (by positivity) ?_ (by norm_num)
  have h200 : (0 : ℝ) ≤ 200 := by norm_num
  nlinarith [abs_nonneg d, abs_nonneg e]

/-- Concrete instance of C4: `delta = -1` against `delta = 2`. -/
theorem claim_C4_witness :
    machineEpsilon ≤ GetError (-1) ∧ GetError (-1) ≤ GetError 2 :=
  ⟨(claim_C4_GetError (-1) 2 (by norm_num)).2.1,
   (claim_C4_GetError (-1) 2 (by norm_num)).2.2⟩

/-- Counterexample to claim C5 as stated: constructing with the
degenerate domain `xLower = xUpper = 1` raises no error — the
constructor is total, performs no validation, and silently produces a
node table in which every node has zero width (`lower = upper`). -/
theorem claim_C5_counterexample :
    ∃ nd ∈ (construct 2 demoRule 1 1 (1 / 1000)).fNodesTable,
      nd.lower = nd.upper := by
  refine ⟨_, List.mem_map.mpr ⟨0, by simp [construct, InitNodes], rfl⟩, ?_⟩
  show (1 : ℚ) + ((0 : ℕ) : ℚ) * ((1 - 1) / ((2 : ℕ) : ℚ))
      = 1 + (((0 : ℕ) : ℚ) + 1) * ((1 - 1) / ((2 : ℕ) : ℚ))
  norm_num

/-- Claim C5 (amended): the constructor performs no validation of the
bounds: it always succeeds, and with a degenerate domain
(`xLower = xUpper`) every node of the resulting table has zero width,
while with inverted bounds (`xUpper < xLower`) every node has negative
width (`upper < lower`) — the nonsensical partitions are produced
silently. -/
theorem claim_C5_no_validation (NBIN : ℕ) (rule : GKRule)
    (xl xu tol : ℚ) (hN : 0 < NBIN) :
    (construct NBIN rule xl xu tol).fNodesTable.length = NBIN
    ∧ (xl = xu →
        ∀ nd ∈ (construct NBIN rule xl xu tol).fNodesTable, nd.lower = nd.upper)
    ∧ (xu < xl →
        ∀ nd ∈ (construct NBIN rule xl xu tol).fNodesTable, nd.upper < nd.lower) := by
  have hN' : (0 : ℚ) < (NBIN : ℚ) := by exact_mod_cast hN
  refine ⟨by simp [construct, InitNodes], ?_, ?_⟩
  · rintro rfl nd hnd
    have hw := @InitNodes_width NBIN xl xl nd hnd
    simp only [sub_self, zero_div] at hw
    linarith
  · intro hlt nd hnd
    have hw := @InitNodes_width NBIN xl xu nd hnd
    have : (xu - xl) / (NBIN : ℚ) < 0 :=
      div_neg_of_neg_of_pos (by linarith) hN'
    linarith

/-- Concrete instance of the amended C5: inverted bounds `[1, 0]` with
`NBIN = 2` silently give nodes of negative width. -/
theorem claim_C5_witness :
    0 < 2 ∧ ∀ nd ∈ (construct 2 demoRule 1 0 1).fNodesTable,
      nd.upper < nd.lower :=
  ⟨by decide, (claim_C5_no_validation 2 demoRule 1 0 1 (by decide)).2.2 (by norm_num)⟩

/-- Claim C6: `SetXLower` and `SetXUpper` each re-run `InitNodes`,
discarding all prior adaptive state: the node table after a setter is
exactly `InitNodes` of the current bounds (a pure function of
`(xLower, xUpper, NBIN)`), so mutating the bounds arbitrarily and then
restoring the original bounds — in either order — reproduces the
original initial node table exactly, which is also the table of a
freshly constructed integrator with those bounds. -/
theorem claim_C6_setters_reinitialize (NBIN : ℕ) (s : GKState) (a b : ℚ) :
    (∀ x, (SetXLower NBIN x s).fNodesTable = InitNodes NBIN x s.fXUpper)
    ∧ (∀ x, (SetXUpper NBIN x s).fNodesTable = InitNodes NBIN s.fXLower x)
    ∧ (SetXUpper NBIN s.fXUpper (SetXLower NBIN s.fXLower
        (SetXLower NBIN a (SetXUpper NBIN b s)))).fNodesTable
        = InitNodes NBIN s.fXLower s.fXUpper
    ∧ (SetXLower NBIN s.fXLower (SetXUpper NBIN s.fXUpper
        (SetXLower NBIN a (SetXUpper NBIN b s)))).fNodesTable
        = (construct NBIN s.fRule s.fXLower s.fXUpper
            s.fMaxRelativeError).fNodesTable :=
  ⟨fun _ => rfl, fun _ => rfl, rfl, rfl⟩

/-- Claim C7: at every reachable point of the refinement loop (from
`InitNodes` through any sequence of bisections and retirements) the
intervals of the nodes — active and retired alike — tile
`[xLower, xUpper]` contiguously with no gaps and no overlaps, their
union is exactly `[xLower, xUpper]`, and a bisected node's two
children's intervals union to exactly the parent's interval. -/
theorem claim_C7_coverage_invariant (NBIN : ℕ) (xLower xUpper : ℚ)
    (t : List GKNode) (hN : 0 < NBIN) (hord : xLower ≤ xUpper)
    (hr : GKReachable NBIN xLower xUpper t) :
    tiles t xLower xUpper
    ∧ (∀ nd ∈ t, nd.lower ≤ nd.upper)
    ∧ (⋃ nd ∈ t, Set.Icc nd.lower nd.upper) = Set.Icc xLower xUpper
    ∧ (∀ nd : GKNode, nd.lower ≤ nd.upper →
        Set.Icc nd.lower ((nd.lower + nd.upper) / 2)
          ∪ Set.Icc ((nd.lower + nd.upper) / 2) nd.upper
          = Set.Icc nd.lower nd.upper) := by
  obtain ⟨ht, hw, hne⟩ := hr.invariant hN hord
  exact ⟨ht, hw, tiles_biUnion ht hw hne,
    fun nd h => Set.Icc_union_Icc_eq_Icc (by linarith) (by linarith)⟩

/-- Concrete instance of C7: the initial table on `[0, 1]` with one
bin. -/
theorem claim_C7_witness :
    (0 : ℚ) ≤ 1 ∧ tiles (InitNodes 1 0 1) 0 1 :=
  ⟨by norm_num,
   (claim_C7_coverage_invariant 1 0 1 _ (by decide) (by norm_num)
     GKReachable.init).1⟩

/-- Claim C8: on a zero-width domain (`fXLower = fXUpper`) `Integrate`
returns the pair `(0, 0)` and the user functor is never invoked (the
trace of evaluation points is empty). -/
theorem claim_C8_zero_width (NRULE : ℕ) (f : ℚ → ℚ) (s : GKState)
    (h : s.fXLower = s.fXUpper) :
    Integrate NRULE f s = ((0, 0), []) := by
  simp [Integrate, h]

/-- Concrete instance of C8: an integrator constructed on
`[1/2, 1/2]`. -/
theorem claim_C8_witness :
    Integrate 3 (fun x => x * x) (construct 4 demoRule (1 / 2) (1 / 2) 1)
      = ((0, 0), []) :=
  claim_C8_zero_width 3 (fun x => x * x) _ rfl

/-- Claim C9: copy construction and copy assignment from a distinct
source copy the iteration number, bounds, tolerance and rule but never
the source's node table — they re-run `InitNodes`, so the node table
equals that of a freshly constructed integrator with the source's
bounds and is independent of the source's table; self-assignment
(`this == &other`, modelled by the `same` flag) returns immediately and
leaves the whole state unchanged. -/
theorem claim_C9_copy_semantics (NBIN : ℕ) (self other : GKState) :
    assign NBIN self other true = self
    ∧ (assign NBIN self other false).fIterationNumber = other.fIterationNumber
    ∧ (assign NBIN self other false).fXLower = other.fXLower
    ∧ (assign NBIN self other false).fXUpper = other.fXUpper
    ∧ (assign NBIN self other false).fMaxRelativeError = other.fMaxRelativeError
    ∧ (assign NBIN self other false).fRule = other.fRule
    ∧ (assign NBIN self other false).fNodesTable
        = (construct NBIN other.fRule other.fXLower other.fXUpper
            other.fMaxRelativeError).fNodesTable
    ∧ (∀ tbl, assign NBIN self { other with fNodesTable := tbl } false
        = assign NBIN self other false)
    ∧ copyConstruct NBIN other = assign NBIN self other false
    ∧ (copyConstruct NBIN other).fNodesTable
        = InitNodes NBIN other.fXLower other.fXUpper :=
  ⟨rfl, rfl, rfl, rfl, rfl, rfl, rfl, fun _ => rfl, rfl, rfl⟩

/-- Claim C10: `SetMaxRelativeError` changes only the stored tolerance:
the node table, bounds, rule and iteration number are untouched and
initialization is not re-run. -/
theorem claim_C10_tolerance_frame (t : ℚ) (s : GKState) :
    (SetMaxRelativeError t s).fMaxRelativeError = t
    ∧ (SetMaxRelativeError t s).fNodesTable = s.fNodesTable
    ∧ (SetMaxRelativeError t s).fXLower = s.fXLower
    ∧ (SetMaxRelativeError t s).fXUpper = s.fXUpper
    ∧ (SetMaxRelativeError t s).fRule = s.fRule
    ∧ (SetMaxRelativeError t s).fIterationNumber = s.fIterationNumber :=
  ⟨rfl, rfl, rfl, rfl, rfl, rfl⟩

end Hydra
